import Mathlib

/-!
Verification development for the `go-dags` flow package
(`pkg/flow/flow.go`): a workflow engine that registers tasks, records
"must-come-before" dependency edges in a directed graph, computes a
stabilized topological execution order, and drives one sequential
reconciliation pass per call.

The graph primitives (`simple.DirectedGraph`, `topo.SortStabilized`)
come from the external gonum library, which the design document
declares out of scope ("assume a library primitive: compute a stable
topological order of a directed graph, or report the cycle").  They are
modelled here after gonum's documented behaviour: a simple directed
graph keyed by integer node ids that rejects self edges by panicking
and stores at most one edge per ordered pair, and a stabilized
topological sort that visits roots and successors in descending id
order with a depth-first strategy, emits the reverse finishing order,
and reports every nontrivial strongly connected component when the
graph is cyclic.  The model was cross-checked against the ordering
shown by the repository's own demo (`2, 5, 3, 4, 1`) and cycle report
(`[[1 3 4 5]]`).
-/

namespace GoDags

/-- Structural model of the Go error values that the flow package and its
gonum collaborators can produce.  Go errors are compared here by shape
rather than by formatted message text. -/
inductive GoError where
  | alreadyExists : GoError
  | unknownTask (taskId : Int) (missingId : Int) : GoError
  | unorderable (components : List (List Int)) : GoError
  | fatal (cause : GoError) : GoError
  | canceled : GoError
  | msg (s : String) : GoError
deriving DecidableEq

/-- Outcome of a Go call that can panic: either a panic with its message,
or a normal return value. -/
inductive GoResult (α : Type) where
  | panicked (message : String) : GoResult α
  | ok (value : α) : GoResult α
deriving DecidableEq

/-- Model of `context.Context` restricted to what `Reconcile` observes:
the value `ctx.Err()` returns at each successive sampling point.  Index
`k` is the number of `ctx.Err()` calls made before this one, so a
context whose cancellation flips mid-pass is representable. -/
structure Ctx where
  errAt : Nat → Option GoError

/-- Model of `flow.Task`.  The reconcile function receives the caller's
context together with the task's own id and description (the data the
Go function can read from its `*Task` handle). -/
structure Task where
  id : Int
  desc : String
  deps : List Int
  reconcileFn : Ctx → Int × String → Option GoError

/-- Model of `flow.NewTask`. -/
def NewTask (id : Int) (desc : String) (fn : Ctx → Int × String → Option GoError) : Task :=
  { id := id, desc := desc, deps := [], reconcileFn := fn }

/-- Modelled from the spec: gonum's `simple.DirectedGraph` (an external
collaborator, out of scope for the repository).  Nodes are integer ids;
edges are ordered pairs.  Both lists are kept duplicate-free by the
insertion operations below, mirroring gonum's map-backed storage. -/
structure DirectedGraph where
  nodes : List Int
  edges : List (Int × Int)
deriving DecidableEq

/-- Modelled from the spec: gonum's `(*DirectedGraph).AddNode`, which
panics when the node id already exists. -/
def DirectedGraph.addNode (g : DirectedGraph) (v : Int) : GoResult DirectedGraph :=
  if v ∈ g.nodes then .panicked "simple: node collision"
  else .ok { g with nodes := g.nodes ++ [v] }

/-- Modelled from the spec: gonum's `(*DirectedGraph).SetEdge`, which
panics on a self edge, adds missing endpoints, and overwrites (rather
than duplicates) an existing edge for the same ordered pair. -/
def DirectedGraph.setEdge (g : DirectedGraph) (u v : Int) : GoResult DirectedGraph :=
  if u = v then .panicked "simple: adding self edge"
  else
    let g1 := if u ∈ g.nodes then g else { g with nodes := g.nodes ++ [u] }
    let g2 := if v ∈ g1.nodes then g1 else { g1 with nodes := g1.nodes ++ [v] }
    if (u, v) ∈ g2.edges then .ok g2
    else .ok { g2 with edges := g2.edges ++ [(u, v)] }

/-- Model of `flow.Workflow`: the dependency graph plus the task
registry (Go: `map[int64]*Task`), modelled as an association list. -/
structure Workflow where
  graph : DirectedGraph
  tasks : List (Int × Task)

/-- Model of `flow.NewWorkflow`. -/
def NewWorkflow : Workflow :=
  { graph := { nodes := [], edges := [] }, tasks := [] }

/-- Lookup in the task registry, modelling Go's map indexing
(`w.tasks[id]`); `none` plays the role of Go's nil pointer. -/
def lookupTask (ts : List (Int × Task)) (i : Int) : Option Task :=
  (ts.find? (fun p => p.1 == i)).map Prod.snd

/-- Model of `(*Workflow).AddTask`: reject an already-registered id with
the `AlreadyExists` error, otherwise insert into the registry and add
the graph node. -/
def AddTask (w : Workflow) (task : Task) : GoResult (Workflow × Option GoError) :=
  if (lookupTask w.tasks task.id).isSome then .ok (w, some .alreadyExists)
  else
    let w1 : Workflow := { w with tasks := w.tasks ++ [(task.id, task)] }
    match w1.graph.addNode task.id with
    | .panicked m => .panicked m
    | .ok g => .ok ({ w1 with graph := g }, none)

/-- Model of `(*Workflow).AddTasks`: add each task in order, stopping at
the first error. -/
def AddTasks (w : Workflow) : List Task → GoResult (Workflow × Option GoError)
  | [] => .ok (w, none)
  | t :: ts =>
    match AddTask w t with
    | .panicked m => .panicked m
    | .ok (w1, some e) => .ok (w1, some e)
    | .ok (w1, none) => AddTasks w1 ts

/-- Second phase of `(*Workflow).AddDependency`: insert one reversed
edge (dependency to task) per dependency via `SetEdge`. -/
def setEdges (w : Workflow) (taskId : Int) : List Int → GoResult (Workflow × Option GoError)
  | [] => .ok (w, none)
  | d :: ds =>
    match w.graph.setEdge d taskId with
    | .panicked m => .panicked m
    | .ok g => setEdges { w with graph := g } taskId ds

/-- Model of `(*Workflow).AddDependency`: fail (naming the missing id)
if the task or any dependency has no graph node, checking every
dependency before inserting any edge; then add one edge from each
dependency to the task. -/
def AddDependency (w : Workflow) (task : Task) (dependencies : List Task) :
    GoResult (Workflow × Option GoError) :=
  if task.id ∈ w.graph.nodes then
    match dependencies.find? (fun d => decide (d.id ∉ w.graph.nodes)) with
    | some d => .ok (w, some (.unknownTask task.id d.id))
    | none => setEdges w task.id (dependencies.map Task.id)
  else .ok (w, some (.unknownTask task.id task.id))

/-- Ascending insertion sort on integer ids, modelling gonum's
`ordered.ByID`. -/
def sortedAsc (l : List Int) : List Int :=
  List.insertionSort (fun a b => a ≤ b) l

/-- Node list in descending id order: gonum's stabilized sort orders
the nodes ascending and then reverses before the depth-first visit. -/
def descNodes (g : DirectedGraph) : List Int :=
  (sortedAsc g.nodes).reverse

/-- Successors of a node in descending id order, as visited by gonum's
stabilized depth-first traversal. -/
def succList (g : DirectedGraph) (v : Int) : List Int :=
  (sortedAsc ((g.edges.filter (fun e => decide (e.1 = v))).map Prod.snd)).reverse

/-- One row of the depth-first visit underlying the stabilized
topological sort: explore the worklist `ws` in order against the list
`fresh` of not-yet-visited nodes, descending into a fresh node's
successors via `deeper` (the visit at strictly smaller remaining
depth).  The result is the list of newly visited nodes in finishing
order. -/
def visitRow (succ : Int → List Int) (deeper : List Int → List Int → List Int) :
    List Int → List Int → List Int
  | [], _ => []
  | w :: ws, fresh =>
    if w ∈ fresh then
      let p1 := deeper (succ w) (fresh.erase w)
      let p2 := visitRow succ deeper ws ((fresh.erase w).filter (fun x => decide (x ∉ p1)))
      p1 ++ w :: p2
    else visitRow succ deeper ws fresh

/-- Depth-first visit with an explicit depth bound.  Each descent into
a fresh node's successors removes that node from `fresh`, so a bound of
`fresh.length` can never be exhausted; the bound only makes the
recursion structural. -/
def visitAll (succ : Int → List Int) : Nat → List Int → List Int → List Int
  | 0, _, _ => []
  | fuel + 1, ws, fresh => visitRow succ (visitAll succ fuel) ws fresh

/-- Finishing order of the full stabilized depth-first traversal. -/
def dfsPostorder (g : DirectedGraph) : List Int :=
  visitAll (succList g) (descNodes g).length (descNodes g) (descNodes g)

/-- The stabilized topological order: the reverse of the finishing
order (on an acyclic graph this is exactly what gonum's
`topo.SortStabilized` returns). -/
def dfsOrder (g : DirectedGraph) : List Int :=
  (dfsPostorder g).reverse

/-- Bounded reachability: `reachWithin edges n a b` decides whether a
directed path of between 1 and `n` edges leads from `a` to `b`. -/
def reachWithin (edges : List (Int × Int)) : Nat → Int → Int → Bool
  | 0, _, _ => false
  | n + 1, a, b =>
    edges.any (fun e => decide (e.1 = a) && (decide (e.2 = b) || reachWithin edges n e.2 b))

/-- Reachability by a nonempty path; a path in a graph never needs more
edges than there are distinct nodes. -/
def reachB (g : DirectedGraph) (a b : Int) : Bool :=
  reachWithin g.edges g.nodes.length a b

/-- Membership of `u` in the strongly connected component of `v`. -/
def sameSCCb (g : DirectedGraph) (v u : Int) : Bool :=
  decide (u = v) || (reachB g v u && reachB g u v)

/-- Nodes lying on some directed cycle, in ascending id order. -/
def cyclicNodes (g : DirectedGraph) : List Int :=
  (sortedAsc g.nodes).filter (fun v => reachB g v v)

/-- The nontrivial strongly connected components (the sets gonum's
`topo.Unorderable` error reports), each listed in ascending id order. -/
def cyclicComponents (g : DirectedGraph) : List (List Int) :=
  ((cyclicNodes g).map (fun v => (cyclicNodes g).filter (fun u => sameSCCb g v u))).dedup

/-- Modelled from the spec: gonum's `topo.SortStabilized` with the
default (ascending id) stabilizer, the library primitive the spec
assumes ("compute a stable topological order of a directed graph, or
report the cycle").  On an acyclic graph it returns the reverse
finishing order of the descending-id depth-first traversal; on a
cyclic graph it fails with an error naming the nontrivial strongly
connected components. -/
def SortStabilized (g : DirectedGraph) : Except GoError (List Int) :=
  if cyclicComponents g = [] then .ok (dfsOrder g)
  else .error (.unorderable (cyclicComponents g))

/-- Model of `(*Workflow).GetOrderedTasks`: sort the graph, then map
each node id through the registry (a missing id would yield Go's nil
pointer, modelled as `none`). -/
def GetOrderedTasks (w : Workflow) : Except GoError (List (Option Task)) :=
  match SortStabilized w.graph with
  | .error e => .error e
  | .ok ids => .ok (ids.map (fun i => lookupTask w.tasks i))

/-- Body of `(*Workflow).Reconcile`'s loop.  `k` counts the `ctx.Err()`
samples taken so far; the returned list records the ids of the tasks
actually invoked, in order, alongside the returned error (`none` for
a successful pass).  Invoking a nil task dereferences a nil pointer. -/
def reconcileLoop (ctx : Ctx) : Nat → List (Option Task) → GoResult (List Int × Option GoError)
  | _, [] => .ok ([], none)
  | k, ot :: ts =>
    match ctx.errAt k with
    | some _ => reconcileLoop ctx (k + 1) ts
    | none =>
      match ot with
      | none => .panicked "invalid memory address or nil pointer dereference"
      | some t =>
        match t.reconcileFn ctx (t.id, t.desc) with
        | some e => .ok ([t.id], some e)
        | none =>
          match reconcileLoop ctx (k + 1) ts with
          | .panicked m => .panicked m
          | .ok (tr, res) => .ok (t.id :: tr, res)

/-- Model of `(*Workflow).Reconcile`: compute the order (wrapping an
ordering failure in `FatalError`), then walk the tasks in order,
sampling cancellation once before each would-be invocation and
stopping at the first task error, which is returned unwrapped. -/
def Reconcile (w : Workflow) (ctx : Ctx) : GoResult (List Int × Option GoError) :=
  match GetOrderedTasks w with
  | .error e => .ok ([], some (.fatal e))
  | .ok ts => reconcileLoop ctx 0 ts

/-- Registered task ids, in registry order. -/
def taskKeys (w : Workflow) : List Int :=
  w.tasks.map Prod.fst

/-- Well-formedness invariant maintained by the workflow API: node and
edge storage is duplicate-free, edges join distinct existing nodes,
registry keys are unique and agree with each task's own id, and the
graph's node set coincides with the registry's key set. -/
def WF (w : Workflow) : Prop :=
  w.graph.nodes.Nodup ∧
  w.graph.edges.Nodup ∧
  (∀ e ∈ w.graph.edges, e.1 ∈ w.graph.nodes ∧ e.2 ∈ w.graph.nodes ∧ e.1 ≠ e.2) ∧
  (taskKeys w).Nodup ∧
  (∀ p ∈ w.tasks, p.2.id = p.1) ∧
  (∀ v ∈ w.graph.nodes, v ∈ taskKeys w) ∧
  (∀ v ∈ taskKeys w, v ∈ w.graph.nodes)

instance : DecidablePred WF := fun w => by
  unfold WF
  infer_instance

instance {ε α : Type} [DecidableEq ε] [DecidableEq α] : DecidableEq (Except ε α) := fun a b =>
  match a, b with
  | .error e₁, .error e₂ => decidable_of_iff (e₁ = e₂) (by simp)
  | .ok v₁, .ok v₂ => decidable_of_iff (v₁ = v₂) (by simp)
  | .error _, .ok _ => isFalse (by simp)
  | .ok _, .error _ => isFalse (by simp)

instance (l₁ l₂ : List Int) : Decidable (l₁.Perm l₂) :=
  decidable_of_iff (sortedAsc l₁ = sortedAsc l₂) (by
    constructor
    · intro h
      refine (List.perm_insertionSort (fun a b => a ≤ b) l₁).symm.trans ?_
      rw [sortedAsc] at h
      rw [h]
      exact List.perm_insertionSort (fun a b => a ≤ b) l₂
    · intro h
      exact List.eq_of_perm_of_sorted
        (((List.perm_insertionSort (fun a b => a ≤ b) l₁).trans h).trans
          (List.perm_insertionSort (fun a b => a ≤ b) l₂).symm)
        (List.sorted_insertionSort (fun a b => a ≤ b) l₁)
        (List.sorted_insertionSort (fun a b => a ≤ b) l₂))

/-- One dependency edge of the graph, as a relation. -/
def Step (g : DirectedGraph) (a b : Int) : Prop :=
  (a, b) ∈ g.edges

/-- Absence of directed cycles, stated over the transitive closure of
the edge relation. -/
def Acyclic (g : DirectedGraph) : Prop :=
  ∀ v, ¬ Relation.TransGen (Step g) v v

/-- Valid topological order of a graph: a permutation of the nodes in
which every edge points forward. -/
def IsTopoOrder (g : DirectedGraph) (l : List Int) : Prop :=
  l.Perm g.nodes ∧ ∀ e ∈ g.edges, l.indexOf e.1 < l.indexOf e.2

instance (g : DirectedGraph) (l : List Int) : Decidable (IsTopoOrder g l) := by
  unfold IsTopoOrder
  infer_instance

/-- Occurrence of `q` strictly before `p` in the list `P`. -/
def Precedes (P : List Int) (q p : Int) : Prop :=
  ∃ l1 l2, P = l1 ++ l2 ∧ q ∈ l1 ∧ p ∈ l2

/-- Sequencing of workflow-building calls that stops at the first error
or panic, as the demo's `doOrDie` driver does. -/
def GoResult.andThen (r : GoResult (Workflow × Option GoError))
    (f : Workflow → GoResult (Workflow × Option GoError)) :
    GoResult (Workflow × Option GoError) :=
  match r with
  | .panicked m => .panicked m
  | .ok (w, some e) => .ok (w, some e)
  | .ok (w, none) => f w

/-- Task body that reports immediate success, for building concrete
workflows. -/
def noopFn : Ctx → Int × String → Option GoError := fun _ _ => none

def tA1 : Task := NewTask 1 "create V1" noopFn

def tA2 : Task := NewTask 2 "create V2" noopFn

def tA3 : Task := NewTask 3 "create V3" noopFn

def tA4 : Task := NewTask 4 "create V4" noopFn

def tA5 : Task := NewTask 5 "create V5" noopFn

/-- Scenario A of the spec, built through the workflow API exactly as
the repository's example does: tasks 1–5, task 1 depending on 2, 3, 4
and 5, task 3 on 5 and task 4 on 5. -/
def scenarioA : GoResult (Workflow × Option GoError) :=
  (AddTasks NewWorkflow [tA1, tA2, tA3, tA4, tA5]).andThen (fun w =>
  (AddDependency w tA1 [tA2]).andThen (fun w =>
  (AddDependency w tA1 [tA3]).andThen (fun w =>
  (AddDependency w tA1 [tA4]).andThen (fun w =>
  (AddDependency w tA1 [tA5]).andThen (fun w =>
  (AddDependency w tA3 [tA5]).andThen (fun w =>
  AddDependency w tA4 [tA5]))))))

/-- The scenario A workflow (falling back to the empty workflow if the
build failed, which the theorems below rule out). -/
def wA : Workflow :=
  match scenarioA with
  | .ok (w, none) => w
  | _ => NewWorkflow

/-- Scenario D of the spec: scenario A plus a dependency of task 5 on
task 1, closing the cycle 1 → 5 → 1 (and through 3 and 4). -/
def wD : Workflow :=
  match AddDependency wA tA5 [tA1] with
  | .ok (w, _) => w
  | _ => NewWorkflow

/-- Workflow with tasks 1–4 where task 3 depends on 1, task 1 on 4 and
task 2 on 4; tasks 2 and 3 are unordered relative to each other. -/
def scenarioTie : GoResult (Workflow × Option GoError) :=
  (AddTasks NewWorkflow [tA1, tA2, tA3, tA4]).andThen (fun w =>
  (AddDependency w tA3 [tA1]).andThen (fun w =>
  (AddDependency w tA1 [tA4]).andThen (fun w =>
  AddDependency w tA2 [tA4])))

def wTie : Workflow :=
  match scenarioTie with
  | .ok (w, none) => w
  | _ => NewWorkflow

/-- The graph of `wTie` with its node and edge lists stored in a
different order, as a different Go map iteration could present them. -/
def wTieShuffled : Workflow :=
  { graph := { nodes := [3, 1, 4, 2], edges := [(4, 2), (1, 3), (4, 1)] },
    tasks := wTie.tasks }

/-- Context that never signals cancellation. -/
def ctxNone : Ctx := { errAt := fun _ => none }

/-- Context that is cancelled from the start. -/
def ctxCancel : Ctx := { errAt := fun _ => some .canceled }

/-- Task with an id that is never registered in the demo workflows. -/
def tUnknown : Task := NewTask 9 "unregistered" noopFn

/-- Second task value carrying the already-registered id 1. -/
def tA1dup : Task := NewTask 1 "duplicate of V1" noopFn

/-! Reachability: `reachB` agrees with the transitive closure of the
edge relation. -/

theorem reachWithin_mono (edges : List (Int × Int)) :
    ∀ {n m : Nat} {a b : Int}, n ≤ m → reachWithin edges n a b = true →
      reachWithin edges m a b = true := by
  intro n
  induction n with
  | zero => intro m a b _ h; simp [reachWithin] at h
  | succ n ih =>
    intro m a b hnm h
    obtain ⟨m, rfl⟩ : ∃ m', m = m' + 1 := ⟨m - 1, by omega⟩
    simp only [reachWithin, List.any_eq_true] at h ⊢
    obtain ⟨e, he, hp⟩ := h
    refine ⟨e, he, ?_⟩
    simp only [Bool.and_eq_true, Bool.or_eq_true, decide_eq_true_eq] at hp ⊢
    obtain ⟨h1, h2 | h2⟩ := hp
    · exact ⟨h1, Or.inl h2⟩
    · exact ⟨h1, Or.inr (ih (by omega) h2)⟩

theorem transGen_of_reachWithin (g : DirectedGraph) :
    ∀ {n : Nat} {a b : Int}, reachWithin g.edges n a b = true →
      Relation.TransGen (Step g) a b := by
  intro n
  induction n with
  | zero => intro a b h; simp [reachWithin] at h
  | succ n ih =>
    intro a b h
    simp only [reachWithin, List.any_eq_true, Bool.and_eq_true, Bool.or_eq_true,
      decide_eq_true_eq] at h
    obtain ⟨e, he, rfl, h2 | h2⟩ := h
    · exact h2 ▸ Relation.TransGen.single (show Step g e.1 e.2 from he)
    · exact Relation.TransGen.head (show Step g e.1 e.2 from he) (ih h2)

theorem reachWithin_of_chain (edges : List (Int × Int)) :
    ∀ (l : List Int) (a b : Int), l ≠ [] →
      List.Chain (fun x y => (x, y) ∈ edges) a l → l.getLast? = some b →
      reachWithin edges l.length a b = true := by
  intro l
  induction l with
  | nil => intro a b h; exact absurd rfl h
  | cons c l ih =>
    intro a b _ hchain hlast
    rw [List.chain_cons] at hchain
    obtain ⟨hac, hchain⟩ := hchain
    simp only [List.length_cons, reachWithin, List.any_eq_true, Bool.and_eq_true,
      Bool.or_eq_true, decide_eq_true_eq]
    cases l with
    | nil =>
      simp only [List.getLast?_singleton, Option.some.injEq] at hlast
      exact ⟨(a, c), hac, rfl, Or.inl hlast⟩
    | cons d l' =>
      rw [List.getLast?_cons_cons] at hlast
      exact ⟨(a, c), hac, rfl, Or.inr (ih c b (by simp) hchain hlast)⟩

theorem chain_mem_nodes (g : DirectedGraph)
    (hend : ∀ e ∈ g.edges, e.1 ∈ g.nodes ∧ e.2 ∈ g.nodes) :
    ∀ (l : List Int) (a : Int), List.Chain (Step g) a l → ∀ x ∈ l, x ∈ g.nodes := by
  intro l
  induction l with
  | nil => intro a _ x hx; simp at hx
  | cons c l ih =>
    intro a hchain x hx
    rw [List.chain_cons] at hchain
    rcases List.mem_cons.mp hx with rfl | hx
    · exact (hend _ hchain.1).2
    · exact ih c hchain.2 x hx

theorem sublist_two_decomp {α : Type} {x : α} :
    ∀ {l : List α}, List.Sublist [x, x] l → ∃ l1 l2 l3, l = l1 ++ (x :: (l2 ++ (x :: l3))) := by
  intro l h
  induction l with
  | nil => cases h
  | cons c l ih =>
    cases h with
    | cons _ h' =>
      obtain ⟨l1, l2, l3, rfl⟩ := ih h'
      exact ⟨c :: l1, l2, l3, rfl⟩
    | cons₂ _ h' =>
      obtain ⟨s, t, rfl⟩ := List.append_of_mem (List.singleton_sublist.mp h')
      exact ⟨[], s, t, rfl⟩

theorem getLast?_middle {α : Type} (l1 l2 l3 : List α) (x : α) :
    (l1 ++ (x :: (l2 ++ (x :: l3)))).getLast? = (l1 ++ (x :: l3)).getLast? := by
  rw [List.getLast?_append_cons, List.getLast?_append_cons, ← List.cons_append,
    List.getLast?_append_cons]

theorem chain_middle {α : Type} (r : α → α → Prop) (a x : α) (l1 l2 l3 : List α)
    (h : List.Chain r a (l1 ++ (x :: (l2 ++ (x :: l3))))) :
    List.Chain r a (l1 ++ (x :: l3)) := by
  rw [List.chain_split] at h
  obtain ⟨h1, h2⟩ := h
  rw [List.chain_split] at h2
  rw [List.chain_split]
  exact ⟨h1, h2.2⟩

theorem exists_nodup_chain {α : Type} [DecidableEq α] (r : α → α → Prop) :
    ∀ (N : Nat) (l : List α) (a b : α), l.length ≤ N → l ≠ [] → List.Chain r a l →
      l.getLast? = some b →
      ∃ l', l' ≠ [] ∧ l'.Nodup ∧ l' ⊆ l ∧ List.Chain r a l' ∧ l'.getLast? = some b := by
  intro N
  induction N with
  | zero => intro l a b hle hne; cases l with
    | nil => exact absurd rfl hne
    | cons c l => simp at hle
  | succ N ih =>
    intro l a b hle hne hchain hlast
    by_cases hnd : l.Nodup
    · exact ⟨l, hne, hnd, fun x hx => hx, hchain, hlast⟩
    · obtain ⟨x, hdup⟩ := List.exists_duplicate_iff_not_nodup.mpr hnd
      obtain ⟨l1, l2, l3, rfl⟩ := sublist_two_decomp (List.duplicate_iff_sublist.mp hdup)
      have hlen : (l1 ++ (x :: l3)).length ≤ N := by
        simp only [List.length_append, List.length_cons] at hle ⊢
        omega
      obtain ⟨l', h1, h2, h3, h4, h5⟩ :=
        ih (l1 ++ (x :: l3)) a b hlen (by simp) (chain_middle r a x l1 l2 l3 hchain)
          (by rw [← getLast?_middle l1 l2 l3 x]; exact hlast)
      refine ⟨l', h1, h2, fun y hy => ?_, h4, h5⟩
      have := h3 hy
      simp only [List.mem_append, List.mem_cons] at this ⊢
      tauto

theorem reachB_of_transGen (g : DirectedGraph)
    (hend : ∀ e ∈ g.edges, e.1 ∈ g.nodes ∧ e.2 ∈ g.nodes)
    {a b : Int} (h : Relation.TransGen (Step g) a b) : reachB g a b = true := by
  obtain ⟨c, hac, hcb⟩ := (Relation.TransGen.head'_iff).mp h
  obtain ⟨l, hchain, hlast⟩ := List.exists_chain_of_relationReflTransGen hcb
  have hchain' : List.Chain (Step g) a (c :: l) := List.Chain.cons hac hchain
  have hlast' : (c :: l).getLast? = some b := by
    rw [List.getLast?_eq_getLast_of_ne_nil (List.cons_ne_nil c l)]
    have : (c :: l).getLast (List.cons_ne_nil c l) = b := hlast
    rw [this]
  obtain ⟨l', h1, h2, h3, h4, h5⟩ :=
    exists_nodup_chain (Step g) (c :: l).length (c :: l) a b le_rfl
      (List.cons_ne_nil c l) hchain' hlast'
  have hsub : l' ⊆ g.nodes := fun x hx =>
    chain_mem_nodes g hend (c :: l) a hchain' x (h3 hx)
  have hlen : l'.length ≤ g.nodes.length := (h2.subperm hsub).length_le
  exact reachWithin_mono g.edges hlen (reachWithin_of_chain g.edges l' a b h1 h4 h5)

theorem transGen_of_reachB (g : DirectedGraph) {a b : Int} (h : reachB g a b = true) :
    Relation.TransGen (Step g) a b :=
  transGen_of_reachWithin g h

theorem transGen_src_mem (g : DirectedGraph)
    (hend : ∀ e ∈ g.edges, e.1 ∈ g.nodes ∧ e.2 ∈ g.nodes) {a b : Int}
    (h : Relation.TransGen (Step g) a b) : a ∈ g.nodes := by
  obtain ⟨c, hac, _⟩ := Relation.TransGen.head'_iff.mp h
  exact (hend _ hac).1

theorem mem_sortedAsc {l : List Int} {v : Int} : v ∈ sortedAsc l ↔ v ∈ l :=
  (List.perm_insertionSort (fun a b => a ≤ b) l).mem_iff

theorem mem_cyclicNodes (g : DirectedGraph) {v : Int} :
    v ∈ cyclicNodes g ↔ v ∈ g.nodes ∧ reachB g v v = true := by
  unfold cyclicNodes
  rw [List.mem_filter, mem_sortedAsc]

theorem acyclic_iff_cyclicNodes_nil (g : DirectedGraph)
    (hend : ∀ e ∈ g.edges, e.1 ∈ g.nodes ∧ e.2 ∈ g.nodes) :
    Acyclic g ↔ cyclicNodes g = [] := by
  constructor
  · intro hac
    cases h : cyclicNodes g with
    | nil => rfl
    | cons v vs =>
      have hv : v ∈ cyclicNodes g := h ▸ List.mem_cons_self v vs
      rw [mem_cyclicNodes] at hv
      exact absurd (transGen_of_reachB g hv.2) (hac v)
  · intro h v htg
    have hm : v ∈ g.nodes := transGen_src_mem g hend htg
    have hv : v ∈ cyclicNodes g := (mem_cyclicNodes g).mpr ⟨hm, reachB_of_transGen g hend htg⟩
    rw [h] at hv
    simp at hv

theorem cyclicComponents_nil_iff (g : DirectedGraph) :
    cyclicComponents g = [] ↔ cyclicNodes g = [] := by
  unfold cyclicComponents
  rw [List.dedup_eq_nil, List.map_eq_nil_iff]

theorem mem_cyclicComponents (g : DirectedGraph)
    (hend : ∀ e ∈ g.edges, e.1 ∈ g.nodes ∧ e.2 ∈ g.nodes) (v : Int) :
    (∃ c ∈ cyclicComponents g, v ∈ c) ↔ Relation.TransGen (Step g) v v := by
  unfold cyclicComponents
  constructor
  · rintro ⟨c, hc, hvc⟩
    rw [List.mem_dedup, List.mem_map] at hc
    obtain ⟨u, _, rfl⟩ := hc
    have hmem := (List.mem_filter.mp hvc).1
    exact transGen_of_reachB g ((mem_cyclicNodes g).mp hmem).2
  · intro htg
    have hm : v ∈ g.nodes := transGen_src_mem g hend htg
    have hv : v ∈ cyclicNodes g := (mem_cyclicNodes g).mpr ⟨hm, reachB_of_transGen g hend htg⟩
    refine ⟨(cyclicNodes g).filter (fun u => sameSCCb g v u), ?_, ?_⟩
    · rw [List.mem_dedup, List.mem_map]
      exact ⟨v, hv, rfl⟩
    · rw [List.mem_filter]
      exact ⟨hv, by simp [sameSCCb]⟩

/-! Ordering of list occurrences. -/

theorem precedes_append_left {P R : List Int} {q p : Int} (h : Precedes P q p) :
    Precedes (P ++ R) q p := by
  obtain ⟨l1, l2, rfl, hq, hp⟩ := h
  exact ⟨l1, l2 ++ R, by rw [List.append_assoc], hq, List.mem_append_left _ hp⟩

theorem precedes_append_right {P R : List Int} {q p : Int} (h : Precedes P q p) :
    Precedes (R ++ P) q p := by
  obtain ⟨l1, l2, rfl, hq, hp⟩ := h
  exact ⟨R ++ l1, l2, by rw [List.append_assoc], List.mem_append_right _ hq, hp⟩

theorem precedes_of_mem {L R : List Int} {q p : Int} (hq : q ∈ L) (hp : p ∈ R) :
    Precedes (L ++ R) q p :=
  ⟨L, R, rfl, hq, hp⟩

theorem precedes_reverse {P : List Int} {q p : Int} (h : Precedes P q p) :
    Precedes P.reverse p q := by
  obtain ⟨l1, l2, rfl, hq, hp⟩ := h
  exact ⟨l2.reverse, l1.reverse, List.reverse_append _ _, List.mem_reverse.mpr hp,
    List.mem_reverse.mpr hq⟩

theorem indexOf_lt_of_precedes {P : List Int} {q p : Int} (hnd : P.Nodup)
    (h : Precedes P q p) : P.indexOf q < P.indexOf p := by
  obtain ⟨l1, l2, rfl, hq, hp⟩ := h
  have hpl1 : p ∉ l1 := fun hmem =>
    (List.disjoint_of_nodup_append hnd) hmem hp
  rw [List.indexOf_append_of_mem hq, List.indexOf_append_of_not_mem hpl1]
  calc l1.indexOf q < l1.length := List.indexOf_lt_length.mpr hq
    _ ≤ l1.length + l2.indexOf p := Nat.le_add_right _ _

/-! Specification of the stabilized depth-first traversal: the visit
emits each fresh worklist node exactly once, and (on an acyclic
successor relation) emits the target of every edge before its source,
provided every node of `gray` (the nodes whose exploration is still in
progress) reaches every worklist node. -/

theorem visitRow_spec (succ : Int → List Int) (fuel : Nat)
    (deeper : List Int → List Int → List Int)
    (hacyc : ∀ v, ¬ Relation.TransGen (fun a b : Int => b ∈ succ a) v v)
    (hd : ∀ ws fresh gray : List Int, fresh.Nodup → fresh.length ≤ fuel →
      (∀ x ∈ gray, ∀ w ∈ ws, Relation.ReflTransGen (fun a b : Int => b ∈ succ a) x w) →
      (deeper ws fresh).Nodup ∧
      (∀ x ∈ deeper ws fresh, x ∈ fresh) ∧
      (∀ w ∈ ws, w ∈ fresh → w ∈ deeper ws fresh) ∧
      (∀ p ∈ deeper ws fresh, ∀ q ∈ succ p,
        (q ∉ fresh ∧ q ∉ gray) ∨ Precedes (deeper ws fresh) q p)) :
    ∀ ws fresh gray : List Int, fresh.Nodup → fresh.length ≤ fuel + 1 →
      (∀ x ∈ gray, ∀ w ∈ ws, Relation.ReflTransGen (fun a b : Int => b ∈ succ a) x w) →
      (visitRow succ deeper ws fresh).Nodup ∧
      (∀ x ∈ visitRow succ deeper ws fresh, x ∈ fresh) ∧
      (∀ w ∈ ws, w ∈ fresh → w ∈ visitRow succ deeper ws fresh) ∧
      (∀ p ∈ visitRow succ deeper ws fresh, ∀ q ∈ succ p,
        (q ∉ fresh ∧ q ∉ gray) ∨ Precedes (visitRow succ deeper ws fresh) q p) := by
  intro ws
  induction ws with
  | nil =>
    intro fresh gray _ _ _
    simp [visitRow]
  | cons w ws ih =>
    intro fresh gray hnd hlen hgray
    by_cases hw : w ∈ fresh
    · have hrw : visitRow succ deeper (w :: ws) fresh =
        deeper (succ w) (fresh.erase w) ++ w ::
          visitRow succ deeper ws ((fresh.erase w).filter
            (fun x => decide (x ∉ deeper (succ w) (fresh.erase w)))) := by
        simp only [visitRow, if_pos hw]
      set p1 := deeper (succ w) (fresh.erase w) with hp1def
      set F2 := (fresh.erase w).filter (fun x => decide (x ∉ p1)) with hF2def
      set p2 := visitRow succ deeper ws F2 with hp2def
      have hlerase : (fresh.erase w).length + 1 = fresh.length :=
        List.length_erase_add_one hw
      obtain ⟨nd1, sub1, com1, ord1⟩ := hd (succ w) (fresh.erase w) (w :: gray)
        (hnd.erase w) (by omega)
        (by
          intro x hx s hs
          rcases List.mem_cons.mp hx with rfl | hx
          · exact Relation.ReflTransGen.single hs
          · exact (hgray x hx w (List.mem_cons_self w ws)).tail hs)
      obtain ⟨nd2, sub2, com2, ord2⟩ := ih F2 gray ((hnd.erase w).filter _)
        (by
          have := List.length_filter_le (fun x => decide (x ∉ p1)) (fresh.erase w)
          rw [← hF2def] at this
          omega)
        (fun x hx w' hw' => hgray x hx w' (List.mem_cons_of_mem w hw'))
      have hwerase : w ∉ fresh.erase w := fun hmem =>
        absurd ((hnd.mem_erase_iff).mp hmem).1 (by simp)
      have hwp1 : w ∉ p1 := fun hmem => hwerase (sub1 w hmem)
      have hsubF2 : ∀ x ∈ F2, x ∈ fresh.erase w := fun x hx => (List.mem_filter.mp hx).1
      have hnotp1F2 : ∀ x ∈ F2, x ∉ p1 := fun x hx => by
        have := (List.mem_filter.mp hx).2
        simpa using this
      have hwp2 : w ∉ p2 := fun hmem => hwerase (hsubF2 w (sub2 w hmem))
      have hdisj : ∀ x ∈ p1, x ∉ p2 := fun x hx hx2 => hnotp1F2 x (sub2 x hx2) hx
      rw [hrw]
      refine ⟨?_, ?_, ?_, ?_⟩
      · rw [List.nodup_append]
        refine ⟨nd1, List.nodup_cons.mpr ⟨hwp2, nd2⟩, ?_⟩
        rw [List.disjoint_left]
        intro x hx
        simp only [List.mem_cons]
        push_neg
        exact ⟨fun hxw => hwp1 (hxw ▸ hx), hdisj x hx⟩
      · intro x hx
        rcases List.mem_append.mp hx with hx | hx
        · exact List.erase_subset _ _ (sub1 x hx)
        · rcases List.mem_cons.mp hx with rfl | hx
          · exact hw
          · exact List.erase_subset _ _ (hsubF2 x (sub2 x hx))
      · intro w' hw' hwf
        rcases List.mem_cons.mp hw' with rfl | hw'
        · exact List.mem_append_right _ (List.mem_cons_self _ _)
        · by_cases hF2 : w' ∈ F2
          · exact List.mem_append_right _ (List.mem_cons_of_mem _ (com2 w' hw' hF2))
          · by_cases hp1mem : w' ∈ p1
            · exact List.mem_append_left _ hp1mem
            · have : w' = w := by
                by_contra hne
                exact hF2 (List.mem_filter.mpr
                  ⟨(hnd.mem_erase_iff).mpr ⟨hne, hwf⟩, by simpa using hp1mem⟩)
              exact this ▸ List.mem_append_right _ (List.mem_cons_self _ _)
      · intro p hp q hq
        rcases List.mem_append.mp hp with hp | hp
        · rcases ord1 p hp q hq with ⟨hq1, hq2⟩ | hpre
          · simp only [List.mem_cons, not_or] at hq2
            refine Or.inl ⟨fun hqf => hq1 ((hnd.mem_erase_iff).mpr ⟨hq2.1, hqf⟩), hq2.2⟩
          · exact Or.inr (precedes_append_left hpre)
        · rcases List.mem_cons.mp hp with rfl | hp
          · by_cases hqe : q ∈ fresh.erase p
            · exact Or.inr (precedes_of_mem (com1 q hq hqe) (List.mem_cons_self _ _))
            · by_cases hqw : q = p
              · exact absurd (Relation.TransGen.single (show p ∈ succ p from hqw ▸ hq))
                  (hacyc p)
              · by_cases hqg : q ∈ gray
                · exact absurd
                    (Relation.TransGen.tail'
                      (hgray q hqg p (List.mem_cons_self p ws)) hq)
                    (hacyc q)
                · exact Or.inl
                    ⟨fun hqf => hqe ((hnd.mem_erase_iff).mpr ⟨hqw, hqf⟩), hqg⟩
          · rcases ord2 p hp q hq with ⟨hq1, hq2⟩ | hpre
            · by_cases hqp1 : q ∈ p1
              · exact Or.inr (precedes_of_mem hqp1 (List.mem_cons_of_mem _ hp))
              · by_cases hqw : q = w
                · refine Or.inr ⟨p1 ++ [w], p2, by simp, ?_, hp⟩
                  simp [hqw]
                · refine Or.inl ⟨fun hqf => ?_, hq2⟩
                  exact hq1 (List.mem_filter.mpr
                    ⟨(hnd.mem_erase_iff).mpr ⟨hqw, hqf⟩, by simpa using hqp1⟩)
            · refine Or.inr ?_
              have : p1 ++ w :: p2 = (p1 ++ [w]) ++ p2 := by simp
              rw [this]
              exact precedes_append_right hpre
    · have hrw : visitRow succ deeper (w :: ws) fresh = visitRow succ deeper ws fresh := by
        simp only [visitRow, if_neg hw]
      obtain ⟨nd, sub, com, ord⟩ := ih fresh gray hnd hlen
        (fun x hx w' hw' => hgray x hx w' (List.mem_cons_of_mem w hw'))
      rw [hrw]
      refine ⟨nd, sub, ?_, ord⟩
      intro w' hw' hwf
      rcases List.mem_cons.mp hw' with rfl | hw'
      · exact absurd hwf hw
      · exact com w' hw' hwf

theorem visitAll_spec (succ : Int → List Int)
    (hacyc : ∀ v, ¬ Relation.TransGen (fun a b : Int => b ∈ succ a) v v) :
    ∀ (fuel : Nat) (ws fresh gray : List Int), fresh.Nodup → fresh.length ≤ fuel →
      (∀ x ∈ gray, ∀ w ∈ ws, Relation.ReflTransGen (fun a b : Int => b ∈ succ a) x w) →
      (visitAll succ fuel ws fresh).Nodup ∧
      (∀ x ∈ visitAll succ fuel ws fresh, x ∈ fresh) ∧
      (∀ w ∈ ws, w ∈ fresh → w ∈ visitAll succ fuel ws fresh) ∧
      (∀ p ∈ visitAll succ fuel ws fresh, ∀ q ∈ succ p,
        (q ∉ fresh ∧ q ∉ gray) ∨ Precedes (visitAll succ fuel ws fresh) q p) := by
  intro fuel
  induction fuel with
  | zero =>
    intro ws fresh gray _ hlen _
    have : fresh = [] := List.length_eq_zero.mp (Nat.le_zero.mp hlen)
    subst this
    simp [visitAll]
  | succ fuel ihf =>
    intro ws fresh gray hnd hlen hgray
    exact visitRow_spec succ fuel (visitAll succ fuel) hacyc
      (fun ws' fresh' gray' h1 h2 h3 => ihf ws' fresh' gray' h1 h2 h3)
      ws fresh gray hnd hlen hgray

/-! From the traversal specification to the stabilized sort. -/

theorem mem_succList (g : DirectedGraph) {v q : Int} :
    q ∈ succList g v ↔ (v, q) ∈ g.edges := by
  unfold succList
  rw [List.mem_reverse, mem_sortedAsc, List.mem_map]
  constructor
  · rintro ⟨e, he, rfl⟩
    have hf := List.mem_filter.mp he
    have h1 : e.1 = v := by simpa using hf.2
    rw [show (v, e.2) = e from by rw [← h1]]
    exact hf.1
  · intro h
    exact ⟨(v, q), List.mem_filter.mpr ⟨h, by simp⟩, rfl⟩

theorem acyclic_succList (g : DirectedGraph) (hac : Acyclic g) :
    ∀ v, ¬ Relation.TransGen (fun a b : Int => b ∈ succList g a) v v := by
  intro v htg
  exact hac v (Relation.TransGen.mono (fun a b h => (mem_succList g).mp h) htg)

theorem mem_descNodes (g : DirectedGraph) {v : Int} : v ∈ descNodes g ↔ v ∈ g.nodes := by
  unfold descNodes
  rw [List.mem_reverse, mem_sortedAsc]

theorem descNodes_nodup (g : DirectedGraph) (h : g.nodes.Nodup) : (descNodes g).Nodup := by
  unfold descNodes
  exact List.nodup_reverse.mpr
    (((List.perm_insertionSort (fun a b => a ≤ b) g.nodes).nodup_iff).mpr h)

theorem descNodes_perm (g : DirectedGraph) : (descNodes g).Perm g.nodes :=
  (List.reverse_perm _).trans (List.perm_insertionSort (fun a b => a ≤ b) g.nodes)

theorem dfsPostorder_spec (g : DirectedGraph) (hnd : g.nodes.Nodup)
    (hend : ∀ e ∈ g.edges, e.1 ∈ g.nodes ∧ e.2 ∈ g.nodes) (hac : Acyclic g) :
    (dfsPostorder g).Nodup ∧ (dfsPostorder g).Perm g.nodes ∧
      (∀ e ∈ g.edges, Precedes (dfsPostorder g) e.2 e.1) := by
  obtain ⟨nd, sub, com, ord⟩ := visitAll_spec (succList g) (acyclic_succList g hac)
    (descNodes g).length (descNodes g) (descNodes g) [] (descNodes_nodup g hnd) le_rfl
    (by intro x hx; simp at hx)
  have hperm : (dfsPostorder g).Perm g.nodes := by
    refine ((nd.subperm (fun x hx => sub x hx)).antisymm
      ((descNodes_nodup g hnd).subperm (fun x hx => com x hx hx))).trans (descNodes_perm g)
  refine ⟨nd, hperm, ?_⟩
  intro e he
  have h1 : e.1 ∈ dfsPostorder g := by
    have hm : e.1 ∈ descNodes g := (mem_descNodes g).mpr (hend e he).1
    exact com e.1 hm hm
  rcases ord e.1 h1 e.2 ((mem_succList g).mpr he) with ⟨hq1, _⟩ | hpre
  · exact absurd ((mem_descNodes g).mpr (hend e he).2) hq1
  · exact hpre

theorem dfsOrder_topo (g : DirectedGraph) (hnd : g.nodes.Nodup)
    (hend : ∀ e ∈ g.edges, e.1 ∈ g.nodes ∧ e.2 ∈ g.nodes) (hac : Acyclic g) :
    IsTopoOrder g (dfsOrder g) := by
  obtain ⟨nd, hperm, ord⟩ := dfsPostorder_spec g hnd hend hac
  constructor
  · exact (List.reverse_perm _).trans hperm
  · intro e he
    exact indexOf_lt_of_precedes (List.nodup_reverse.mpr nd) (precedes_reverse (ord e he))

theorem sortStabilized_ok_of_acyclic (g : DirectedGraph)
    (hend : ∀ e ∈ g.edges, e.1 ∈ g.nodes ∧ e.2 ∈ g.nodes) (hac : Acyclic g) :
    SortStabilized g = .ok (dfsOrder g) := by
  unfold SortStabilized
  rw [if_pos ((cyclicComponents_nil_iff g).mpr
    ((acyclic_iff_cyclicNodes_nil g hend).mp hac))]

theorem sortStabilized_error_of_cyclic (g : DirectedGraph)
    (hend : ∀ e ∈ g.edges, e.1 ∈ g.nodes ∧ e.2 ∈ g.nodes) (hac : ¬ Acyclic g) :
    SortStabilized g = .error (.unorderable (cyclicComponents g)) ∧
      cyclicComponents g ≠ [] := by
  have hne : cyclicComponents g ≠ [] := fun h =>
    hac ((acyclic_iff_cyclicNodes_nil g hend).mpr ((cyclicComponents_nil_iff g).mp h))
  unfold SortStabilized
  rw [if_neg hne]
  exact ⟨rfl, hne⟩

theorem acyclic_of_sortStabilized_ok (g : DirectedGraph)
    (hend : ∀ e ∈ g.edges, e.1 ∈ g.nodes ∧ e.2 ∈ g.nodes) {ids : List Int}
    (h : SortStabilized g = .ok ids) : Acyclic g := by
  unfold SortStabilized at h
  by_cases hc : cyclicComponents g = []
  · exact (acyclic_iff_cyclicNodes_nil g hend).mpr ((cyclicComponents_nil_iff g).mp hc)
  · rw [if_neg hc] at h
    cases h

theorem sortStabilized_ok_ids (g : DirectedGraph) (hnd : g.nodes.Nodup)
    (hend : ∀ e ∈ g.edges, e.1 ∈ g.nodes ∧ e.2 ∈ g.nodes) {ids : List Int}
    (h : SortStabilized g = .ok ids) :
    ids.Perm g.nodes ∧ ids.Nodup ∧ IsTopoOrder g ids := by
  have hac := acyclic_of_sortStabilized_ok g hend h
  have hok := sortStabilized_ok_of_acyclic g hend hac
  have hids : ids = dfsOrder g := by
    rw [h] at hok
    exact (Except.ok.injEq _ _).mp hok
  subst hids
  have htopo := dfsOrder_topo g hnd hend hac
  exact ⟨htopo.1, htopo.1.nodup_iff.mpr hnd, htopo⟩

/-! Registry lookups under the workflow invariant. -/

theorem lookupTask_isSome_iff (ts : List (Int × Task)) (i : Int) :
    (lookupTask ts i).isSome ↔ i ∈ ts.map Prod.fst := by
  unfold lookupTask
  rw [show ∀ o : Option (Int × Task), (o.map Prod.snd).isSome = o.isSome from fun o => by
    cases o <;> rfl]
  rw [List.find?_isSome]
  constructor
  · rintro ⟨x, hx, hpx⟩
    exact List.mem_map.mpr ⟨x, hx, by simpa using hpx⟩
  · intro hmem
    obtain ⟨x, hx, rfl⟩ := List.mem_map.mp hmem
    exact ⟨x, hx, by simp⟩

theorem lookupTask_mem (w : Workflow) (hids : ∀ p ∈ w.tasks, p.2.id = p.1)
    {i : Int} (hi : i ∈ taskKeys w) :
    ∃ t, lookupTask w.tasks i = some t ∧ t.id = i := by
  unfold lookupTask
  cases hfind : w.tasks.find? (fun p => p.1 == i) with
  | none =>
    exfalso
    obtain ⟨p, hp, rfl⟩ := List.mem_map.mp hi
    have := List.find?_eq_none.mp hfind p hp
    simp at this
  | some p =>
    have h1 := List.find?_some hfind
    have h2 : p ∈ w.tasks := List.mem_of_find?_eq_some hfind
    refine ⟨p.2, rfl, ?_⟩
    rw [hids p h2]
    simpa using h1

theorem map_lookup_shape (w : Workflow) (hids : ∀ p ∈ w.tasks, p.2.id = p.1) :
    ∀ ids : List Int, (∀ i ∈ ids, i ∈ taskKeys w) →
      ∃ ts : List Task, ids.map (fun i => lookupTask w.tasks i) = ts.map some ∧
        ts.map Task.id = ids := by
  intro ids
  induction ids with
  | nil => intro _; exact ⟨[], rfl, rfl⟩
  | cons i ids ih =>
    intro hmem
    obtain ⟨t, hfind, hid⟩ := lookupTask_mem w hids (hmem i (List.mem_cons_self i ids))
    obtain ⟨ts, h1, h2⟩ := ih (fun j hj => hmem j (List.mem_cons_of_mem i hj))
    exact ⟨t :: ts, by simp [hfind, h1], by simp [hid, h2]⟩

/-- Shape of a successful ordering under the workflow invariant: the
sorted ids are a duplicate-free topological order of the nodes, and the
returned task list is their pointwise (always successful) registry
lookup. -/
theorem getOrderedTasks_ok_shape (w : Workflow) (hwf : WF w) {l : List (Option Task)}
    (h : GetOrderedTasks w = .ok l) :
    ∃ (ids : List Int) (ts : List Task), SortStabilized w.graph = .ok ids ∧
      l = ids.map (fun i => lookupTask w.tasks i) ∧
      ids.Perm w.graph.nodes ∧ IsTopoOrder w.graph ids ∧
      l = ts.map some ∧ ts.map Task.id = ids := by
  obtain ⟨hnd, -, hend', -, htid, hkeys, -⟩ := hwf
  have hend : ∀ e ∈ w.graph.edges, e.1 ∈ w.graph.nodes ∧ e.2 ∈ w.graph.nodes :=
    fun e he => ⟨(hend' e he).1, (hend' e he).2.1⟩
  unfold GetOrderedTasks at h
  cases hsort : SortStabilized w.graph with
  | error e => rw [hsort] at h; cases h
  | ok ids =>
    rw [hsort] at h
    have hl : l = ids.map (fun i => lookupTask w.tasks i) := ((Except.ok.injEq _ _).mp h).symm
    obtain ⟨hperm, hidnd, htopo⟩ := sortStabilized_ok_ids w.graph hnd hend hsort
    obtain ⟨ts, h1, h2⟩ := map_lookup_shape w htid ids
      (fun i hi => hkeys i (hperm.mem_iff.mp hi))
    exact ⟨ids, ts, rfl, hl, hperm, htopo, hl.trans h1, h2⟩

/-! Behaviour of one reconciliation pass. -/

theorem reconcileLoop_sub (ctx : Ctx) :
    ∀ (ts : List Task) (k : Nat) (tr : List Int) (res : Option GoError),
      reconcileLoop ctx k (ts.map some) = .ok (tr, res) → ∀ i ∈ tr, i ∈ ts.map Task.id := by
  intro ts
  induction ts with
  | nil =>
    intro k tr res h i hi
    simp only [List.map_nil, reconcileLoop, GoResult.ok.injEq, Prod.mk.injEq] at h
    rw [← h.1] at hi
    simp at hi
  | cons t ts ih =>
    intro k tr res h i hi
    simp only [List.map_cons, reconcileLoop] at h
    cases hctx : ctx.errAt k with
    | some e =>
      rw [hctx] at h
      exact List.mem_cons_of_mem _ (ih (k + 1) tr res h i hi)
    | none =>
      rw [hctx] at h
      cases hfn : t.reconcileFn ctx (t.id, t.desc) with
      | some e =>
        rw [hfn] at h
        simp only [GoResult.ok.injEq, Prod.mk.injEq] at h
        rw [← h.1] at hi
        simp only [List.mem_singleton] at hi
        simp [hi]
      | none =>
        rw [hfn] at h
        cases hrec : reconcileLoop ctx (k + 1) (ts.map some) with
        | panicked m => rw [hrec] at h; cases h
        | ok p =>
          rw [hrec] at h
          obtain ⟨tr2, res2⟩ := p
          simp only [GoResult.ok.injEq, Prod.mk.injEq] at h
          rw [← h.1] at hi
          rcases List.mem_cons.mp hi with rfl | hi
          · simp
          · exact List.mem_cons_of_mem _ (ih (k + 1) tr2 res2 hrec i hi)

theorem reconcileLoop_spec (ctx : Ctx) :
    ∀ (ts : List Task) (k : Nat), (ts.map Task.id).Nodup →
      ∃ (tr : List Int) (res : Option GoError),
        reconcileLoop ctx k (ts.map some) = .ok (tr, res) ∧
        (∀ i ∈ tr, i ∈ ts.map Task.id) ∧
        ((res = none ∧
            ∀ t ∈ ts, t.id ∈ tr → t.reconcileFn ctx (t.id, t.desc) = none) ∨
          (∃ (pre : List Task) (t : Task) (post : List Task) (trPre : List Int),
            ts = pre ++ t :: post ∧
            t.reconcileFn ctx (t.id, t.desc) = res ∧ res ≠ none ∧
            tr = trPre ++ [t.id] ∧ (∀ i ∈ trPre, i ∈ pre.map Task.id) ∧
            (∀ u ∈ pre, u.id ∈ trPre → u.reconcileFn ctx (u.id, u.desc) = none) ∧
            (∀ u ∈ post, u.id ∉ tr))) := by
  intro ts
  induction ts with
  | nil =>
    intro k _
    exact ⟨[], none, rfl, by simp, Or.inl ⟨rfl, by simp⟩⟩
  | cons t ts ih =>
    intro k hnd
    simp only [List.map_cons, List.nodup_cons] at hnd
    obtain ⟨htid, hndtail⟩ := hnd
    obtain ⟨tr, res, hloop, htr, hcase⟩ := ih (k + 1) hndtail
    have hmemid : ∀ u ∈ ts, u.id ∈ ts.map Task.id := fun u hu =>
      List.mem_map_of_mem Task.id hu
    cases hctx : ctx.errAt k with
    | some e =>
      refine ⟨tr, res, ?_, fun i hi => List.mem_cons_of_mem _ (htr i hi), ?_⟩
      · simp only [List.map_cons, reconcileLoop, hctx]
        exact hloop
      · rcases hcase with ⟨h1, h2⟩ |
          ⟨pre, t2, post, trPre, he, hres, hne, htr2, hpre1, hpre2, hpost⟩
        · refine Or.inl ⟨h1, ?_⟩
          intro u hu hid
          rcases List.mem_cons.mp hu with rfl | hu
          · exact absurd (htr u.id hid) htid
          · exact h2 u hu hid
        · refine Or.inr ⟨t :: pre, t2, post, trPre, by rw [he]; rfl, hres, hne, htr2, ?_, ?_,
            hpost⟩
          · intro i hi
            exact List.mem_cons_of_mem _ (hpre1 i hi)
          · intro u hu hid
            rcases List.mem_cons.mp hu with rfl | hu
            · exfalso
              have h3 : u.id ∈ pre.map Task.id := hpre1 _ hid
              refine htid ?_
              rw [he]
              simp only [List.map_append, List.mem_append]
              exact Or.inl h3
            · exact hpre2 u hu hid
    | none =>
      cases hfn : t.reconcileFn ctx (t.id, t.desc) with
      | some e =>
        refine ⟨[t.id], some e, ?_, by simp, Or.inr ⟨[], t, ts, [], rfl, hfn, by simp, rfl,
          by simp, by simp, ?_⟩⟩
        · simp only [List.map_cons, reconcileLoop, hctx, hfn]
        · intro u hu
          simp only [List.mem_singleton]
          intro hequ
          exact htid (hequ ▸ hmemid u hu)
      | none =>
        refine ⟨t.id :: tr, res, ?_, ?_, ?_⟩
        · simp only [List.map_cons, reconcileLoop, hctx, hfn, hloop]
        · intro i hi
          rcases List.mem_cons.mp hi with rfl | hi
          · simp
          · exact List.mem_cons_of_mem _ (htr i hi)
        · rcases hcase with ⟨h1, h2⟩ |
            ⟨pre, t2, post, trPre, he, hres, hne, htr2, hpre1, hpre2, hpost⟩
          · refine Or.inl ⟨h1, ?_⟩
            intro u hu hid
            rcases List.mem_cons.mp hu with rfl | hu
            · exact hfn
            · rcases List.mem_cons.mp hid with hid | hid
              · exact absurd (hid ▸ hmemid u hu) htid
              · exact h2 u hu hid
          · refine Or.inr ⟨t :: pre, t2, post, t.id :: trPre, by rw [he]; rfl, hres, hne,
              by rw [htr2]; rfl, ?_, ?_, ?_⟩
            · intro i hi
              rcases List.mem_cons.mp hi with rfl | hi
              · simp
              · exact List.mem_cons_of_mem _ (hpre1 i hi)
            · intro u hu hid
              rcases List.mem_cons.mp hu with rfl | hu
              · exact hfn
              · rcases List.mem_cons.mp hid with hid | hid
                · exfalso
                  have h3 : u.id ∈ ts.map Task.id := hmemid u (by rw [he]; simp [hu])
                  exact htid (hid ▸ h3)
                · exact hpre2 u hu hid
            · intro u hu
              simp only [List.mem_cons, not_or]
              refine ⟨?_, hpost u hu⟩
              intro hequ
              have h3 : u.id ∈ ts.map Task.id := hmemid u (by rw [he]; simp [hu])
              exact htid (hequ ▸ h3)

theorem reconcileLoop_all_cancelled (ctx : Ctx) :
    ∀ (ts : List Task) (k : Nat), (∀ i, i < ts.length → ctx.errAt (k + i) ≠ none) →
      reconcileLoop ctx k (ts.map some) = .ok ([], none) := by
  intro ts
  induction ts with
  | nil => intro k _; rfl
  | cons t ts ih =>
    intro k hcan
    have h0 := hcan 0 (by simp)
    simp only [Nat.add_zero] at h0
    cases hctx : ctx.errAt k with
    | none => exact absurd hctx h0
    | some e =>
      simp only [List.map_cons, reconcileLoop, hctx]
      refine ih (k + 1) ?_
      intro i hi
      have := hcan (i + 1) (by simpa using Nat.succ_lt_succ hi)
      rw [show k + 1 + i = k + (i + 1) by omega]
      exact this

theorem reconcileLoop_skip (ctx : Ctx) :
    ∀ (ts : List Task) (k : Nat), (ts.map Task.id).Nodup →
      ∀ (tr : List Int) (res : Option GoError),
        reconcileLoop ctx k (ts.map some) = .ok (tr, res) →
        ∀ (i : Nat) (hi : i < ts.length), ctx.errAt (k + i) ≠ none →
          (ts.get ⟨i, hi⟩).id ∉ tr := by
  intro ts
  induction ts with
  | nil =>
    intro k _ tr res _ i hi
    simp at hi
  | cons t ts ih =>
    intro k hnd tr res h i hi hcan
    simp only [List.map_cons, List.nodup_cons] at hnd
    obtain ⟨htid, hndtail⟩ := hnd
    simp only [List.map_cons, reconcileLoop] at h
    cases hctx : ctx.errAt k with
    | some e =>
      rw [hctx] at h
      cases i with
      | zero =>
        simp only [List.get]
        intro hmem
        exact htid (reconcileLoop_sub ctx ts (k + 1) tr res h t.id hmem)
      | succ i =>
        have hi2 : i < ts.length := by simpa using hi
        have := ih (k + 1) hndtail tr res h i hi2
          (by rw [show k + 1 + i = k + (i + 1) by omega]; exact hcan)
        simpa using this
    | none =>
      rw [hctx] at h
      cases i with
      | zero =>
        simp only [Nat.add_zero] at hcan
        exact absurd hctx hcan
      | succ i =>
        have hi2 : i < ts.length := by simpa using hi
        cases hfn : t.reconcileFn ctx (t.id, t.desc) with
        | some e =>
          rw [hfn] at h
          simp only [GoResult.ok.injEq, Prod.mk.injEq] at h
          rw [← h.1]
          have hmem : (ts.get ⟨i, hi2⟩).id ∈ ts.map Task.id :=
            List.mem_map_of_mem Task.id (ts.get_mem _ _)
          simp only [List.get, List.mem_singleton]
          intro hequ
          exact htid (hequ ▸ hmem)
        | none =>
          rw [hfn] at h
          cases hrec : reconcileLoop ctx (k + 1) (ts.map some) with
          | panicked m => rw [hrec] at h; cases h
          | ok p =>
            rw [hrec] at h
            obtain ⟨tr2, res2⟩ := p
            simp only [GoResult.ok.injEq, Prod.mk.injEq] at h
            rw [← h.1]
            have hne : (ts.get ⟨i, hi2⟩).id ≠ t.id := by
              intro hequ
              have hmem : (ts.get ⟨i, hi2⟩).id ∈ ts.map Task.id :=
                List.mem_map_of_mem Task.id (ts.get_mem _ _)
              exact htid (hequ ▸ hmem)
            have hnotin := ih (k + 1) hndtail tr2 res2 hrec i hi2
              (by rw [show k + 1 + i = k + (i + 1) by omega]; exact hcan)
            simp only [List.get, List.mem_cons, not_or]
            exact ⟨hne, hnotin⟩

/-! Dependency insertion. -/

theorem setEdge_ok (g : DirectedGraph) {u v : Int} (hne : u ≠ v)
    (hu : u ∈ g.nodes) (hv : v ∈ g.nodes) :
    DirectedGraph.setEdge g u v =
      .ok (if (u, v) ∈ g.edges then g else { g with edges := g.edges ++ [(u, v)] }) := by
  simp only [DirectedGraph.setEdge, if_neg hne, if_pos hu, if_pos hv]
  split <;> rfl

theorem setEdges_ok (taskId : Int) :
    ∀ (ds : List Int) (w : Workflow),
      (∀ d ∈ ds, d ≠ taskId ∧ d ∈ w.graph.nodes) → taskId ∈ w.graph.nodes →
      ∃ w2 : Workflow, setEdges w taskId ds = .ok (w2, none) ∧
        w2.tasks = w.tasks ∧ w2.graph.nodes = w.graph.nodes ∧
        (∀ e, e ∈ w2.graph.edges ↔ (e ∈ w.graph.edges ∨ ∃ d ∈ ds, e = (d, taskId))) ∧
        (w.graph.edges.Nodup → w2.graph.edges.Nodup) ∧
        ((∀ d ∈ ds, (d, taskId) ∈ w.graph.edges) → w2 = w) := by
  intro ds
  induction ds with
  | nil =>
    intro w _ _
    exact ⟨w, rfl, rfl, rfl, by simp, fun h => h, fun _ => rfl⟩
  | cons d ds ih =>
    intro w hds htask
    have hd := hds d (List.mem_cons_self d ds)
    have hset := setEdge_ok w.graph hd.1 hd.2 htask
    by_cases hmem : (d, taskId) ∈ w.graph.edges
    · rw [if_pos hmem] at hset
      obtain ⟨w2, h1, h2, h3, h4, h5, h6⟩ := ih w
        (fun d2 hd2 => hds d2 (List.mem_cons_of_mem d hd2)) htask
      refine ⟨w2, ?_, h2, h3, ?_, h5, ?_⟩
      · simp only [setEdges]
        rw [hset]
        exact h1
      · intro e
        rw [h4 e]
        constructor
        · rintro (he | ⟨d2, hd2, rfl⟩)
          · exact Or.inl he
          · exact Or.inr ⟨d2, List.mem_cons_of_mem d hd2, rfl⟩
        · rintro (he | ⟨d2, hd2, rfl⟩)
          · exact Or.inl he
          · rcases List.mem_cons.mp hd2 with rfl | hd2
            · exact Or.inl hmem
            · exact Or.inr ⟨d2, hd2, rfl⟩
      · intro hall
        exact h6 (fun d2 hd2 => hall d2 (List.mem_cons_of_mem d hd2))
    · rw [if_neg hmem] at hset
      set w1 : Workflow := { w with graph := { w.graph with edges := w.graph.edges ++ [(d, taskId)] } } with hw1
      obtain ⟨w2, h1, h2, h3, h4, h5, h6⟩ := ih w1
        (fun d2 hd2 => hds d2 (List.mem_cons_of_mem d hd2)) htask
      refine ⟨w2, ?_, h2, h3, ?_, ?_, ?_⟩
      · simp only [setEdges]
        rw [hset]
        exact h1
      · intro e
        rw [h4 e]
        constructor
        · rintro (he | ⟨d2, hd2, rfl⟩)
          · rcases List.mem_append.mp he with he | he
            · exact Or.inl he
            · exact Or.inr ⟨d, List.mem_cons_self d ds, List.mem_singleton.mp he⟩
          · exact Or.inr ⟨d2, List.mem_cons_of_mem d hd2, rfl⟩
        · rintro (he | ⟨d2, hd2, rfl⟩)
          · exact Or.inl (List.mem_append_left _ he)
          · rcases List.mem_cons.mp hd2 with rfl | hd2
            · exact Or.inl (List.mem_append_right _ (by simp))
            · exact Or.inr ⟨d2, hd2, rfl⟩
      · intro hnd
        refine h5 ?_
        rw [List.nodup_append]
        exact ⟨hnd, List.nodup_singleton _, by
          rw [List.disjoint_left]
          intro e he hmem2
          rw [List.mem_singleton] at hmem2
          exact hmem (hmem2 ▸ he)⟩
      · intro hall
        exact absurd (hall d (List.mem_cons_self d ds)) hmem

theorem addDependency_missing_task (w : Workflow) (task : Task) (deps : List Task)
    (h : task.id ∉ w.graph.nodes) :
    AddDependency w task deps = .ok (w, some (.unknownTask task.id task.id)) := by
  unfold AddDependency
  rw [if_neg h]

theorem addDependency_missing_dep (w : Workflow) (task : Task) (deps : List Task)
    (htask : task.id ∈ w.graph.nodes) (h : ∃ d ∈ deps, d.id ∉ w.graph.nodes) :
    ∃ d ∈ deps, d.id ∉ w.graph.nodes ∧
      AddDependency w task deps = .ok (w, some (.unknownTask task.id d.id)) := by
  unfold AddDependency
  rw [if_pos htask]
  cases hfind : deps.find? (fun d => decide (d.id ∉ w.graph.nodes)) with
  | none =>
    exfalso
    obtain ⟨d, hd, hnm⟩ := h
    have := List.find?_eq_none.mp hfind d hd
    simp only [decide_eq_true_eq] at this
    exact this hnm
  | some d =>
    have h1 := List.find?_some hfind
    simp only [decide_eq_true_eq] at h1
    exact ⟨d, List.mem_of_find?_eq_some hfind, h1, rfl⟩

theorem addDependency_ok (w : Workflow) (task : Task) (deps : List Task)
    (htask : task.id ∈ w.graph.nodes)
    (hdeps : ∀ d ∈ deps, d.id ∈ w.graph.nodes ∧ d.id ≠ task.id) :
    ∃ w2 : Workflow, AddDependency w task deps = .ok (w2, none) ∧
      w2.tasks = w.tasks ∧ w2.graph.nodes = w.graph.nodes ∧
      (∀ e, e ∈ w2.graph.edges ↔
        (e ∈ w.graph.edges ∨ ∃ d ∈ deps, e = (d.id, task.id))) ∧
      (w.graph.edges.Nodup → w2.graph.edges.Nodup) ∧
      ((∀ d ∈ deps, (d.id, task.id) ∈ w.graph.edges) → w2 = w) := by
  unfold AddDependency
  rw [if_pos htask]
  have hfind : deps.find? (fun d => decide (d.id ∉ w.graph.nodes)) = none := by
    rw [List.find?_eq_none]
    intro d hd
    simp [(hdeps d hd).1]
  rw [hfind]
  obtain ⟨w2, h1, h2, h3, h4, h5, h6⟩ := setEdges_ok task.id (deps.map Task.id) w
    (by
      intro d hd
      obtain ⟨d0, hd0, rfl⟩ := List.mem_map.mp hd
      exact ⟨(hdeps d0 hd0).2, (hdeps d0 hd0).1⟩) htask
  refine ⟨w2, h1, h2, h3, ?_, h5, ?_⟩
  · intro e
    rw [h4 e]
    constructor
    · rintro (he | ⟨d, hd, rfl⟩)
      · exact Or.inl he
      · obtain ⟨d0, hd0, rfl⟩ := List.mem_map.mp hd
        exact Or.inr ⟨d0, hd0, rfl⟩
    · rintro (he | ⟨d, hd, rfl⟩)
      · exact Or.inl he
      · exact Or.inr ⟨d.id, List.mem_map_of_mem Task.id hd, rfl⟩
  · intro hall
    refine h6 ?_
    intro d hd
    obtain ⟨d0, hd0, rfl⟩ := List.mem_map.mp hd
    exact hall d0 hd0

/-! Registration. -/

theorem addTask_duplicate (w : Workflow) (t : Task)
    (h : (lookupTask w.tasks t.id).isSome) :
    AddTask w t = .ok (w, some .alreadyExists) := by
  unfold AddTask
  rw [if_pos h]

/-! Determinism of the stabilized sort: the result depends only on the
node and edge sets, not on the order in which the backing storage
happens to enumerate them (Go map iteration order is arbitrary). -/

theorem any_perm {α : Type} {l1 l2 : List α} (hp : l1.Perm l2) (p : α → Bool) :
    l1.any p = l2.any p := by
  rw [Bool.eq_iff_iff, List.any_eq_true, List.any_eq_true]
  constructor
  · rintro ⟨x, hx, hpx⟩
    exact ⟨x, hp.mem_iff.mp hx, hpx⟩
  · rintro ⟨x, hx, hpx⟩
    exact ⟨x, hp.mem_iff.mpr hx, hpx⟩

theorem reachWithin_perm (edges1 edges2 : List (Int × Int)) (hp : edges1.Perm edges2) :
    ∀ (n : Nat) (a b : Int), reachWithin edges1 n a b = reachWithin edges2 n a b := by
  intro n
  induction n with
  | zero => intro a b; rfl
  | succ n ih =>
    intro a b
    simp only [reachWithin]
    rw [show (fun e : Int × Int =>
        decide (e.1 = a) && (decide (e.2 = b) || reachWithin edges1 n e.2 b)) =
        (fun e : Int × Int =>
        decide (e.1 = a) && (decide (e.2 = b) || reachWithin edges2 n e.2 b)) from
      funext fun e => by rw [ih]]
    exact any_perm hp _

theorem sortedAsc_perm_eq {l1 l2 : List Int} (hp : l1.Perm l2) :
    sortedAsc l1 = sortedAsc l2 :=
  List.eq_of_perm_of_sorted
    (((List.perm_insertionSort (fun a b => a ≤ b) l1).trans hp).trans
      (List.perm_insertionSort (fun a b => a ≤ b) l2).symm)
    (List.sorted_insertionSort (fun a b => a ≤ b) l1)
    (List.sorted_insertionSort (fun a b => a ≤ b) l2)

theorem sortStabilized_perm_invariant (g1 g2 : DirectedGraph)
    (hn : g1.nodes.Perm g2.nodes) (he : g1.edges.Perm g2.edges) :
    SortStabilized g1 = SortStabilized g2 := by
  have hsort : sortedAsc g1.nodes = sortedAsc g2.nodes := sortedAsc_perm_eq hn
  have hreach : ∀ a b, reachB g1 a b = reachB g2 a b := by
    intro a b
    unfold reachB
    rw [hn.length_eq]
    exact reachWithin_perm _ _ he _ a b
  have hsucc : succList g1 = succList g2 := by
    funext v
    unfold succList
    rw [sortedAsc_perm_eq ((he.filter _).map _)]
  have hdesc : descNodes g1 = descNodes g2 := by
    unfold descNodes
    rw [hsort]
  have hcyc : cyclicNodes g1 = cyclicNodes g2 := by
    unfold cyclicNodes
    rw [hsort]
    apply List.filter_congr
    intro v _
    rw [hreach]
  have hsame : ∀ v u, sameSCCb g1 v u = sameSCCb g2 v u := by
    intro v u
    unfold sameSCCb
    rw [hreach, hreach]
  have hcomp : cyclicComponents g1 = cyclicComponents g2 := by
    unfold cyclicComponents
    rw [hcyc]
    congr 1
    apply List.map_congr_left
    intro v _
    apply List.filter_congr
    intro u _
    rw [hsame]
  unfold SortStabilized dfsOrder dfsPostorder
  rw [hcomp, hsucc, hdesc]

theorem acyclic_of_no_self_reach (g : DirectedGraph)
    (hend : ∀ e ∈ g.edges, e.1 ∈ g.nodes ∧ e.2 ∈ g.nodes)
    (h : ∀ v ∈ g.nodes, reachB g v v = false) : Acyclic g := by
  intro v htg
  have hm := transGen_src_mem g hend htg
  have htrue := reachB_of_transGen g hend htg
  rw [h v hm] at htrue
  cases htrue

/-! Claims. -/

/-- C1: for every well-formed workflow whose dependency graph is
acyclic, `GetOrderedTasks` succeeds and returns a sequence of the
registered tasks (one per registered id) in which, for every
must-come-before edge (A, B), A appears strictly before B. -/
theorem C1_getOrderedTasks_topological (w : Workflow) (hwf : WF w)
    (hac : Acyclic w.graph) :
    ∃ ids : List Int,
      SortStabilized w.graph = .ok ids ∧
      GetOrderedTasks w = .ok (ids.map (fun i => lookupTask w.tasks i)) ∧
      ids.Perm w.graph.nodes ∧
      (∀ i ∈ ids, ∃ t : Task, lookupTask w.tasks i = some t ∧ t.id = i) ∧
      (∀ e ∈ w.graph.edges, ids.indexOf e.1 < ids.indexOf e.2) := by
  obtain ⟨hnd, hednd, hend2, htknd, htid, hkeys, hkeys2⟩ := hwf
  have hend : ∀ e ∈ w.graph.edges, e.1 ∈ w.graph.nodes ∧ e.2 ∈ w.graph.nodes :=
    fun e he => ⟨(hend2 e he).1, (hend2 e he).2.1⟩
  have hok := sortStabilized_ok_of_acyclic w.graph hend hac
  have htopo := dfsOrder_topo w.graph hnd hend hac
  refine ⟨dfsOrder w.graph, hok, ?_, htopo.1, ?_, fun e he => htopo.2 e he⟩
  · unfold GetOrderedTasks
    rw [hok]
  · intro i hi
    exact lookupTask_mem w htid (hkeys i (htopo.1.mem_iff.mp hi))

theorem C1_witness :
    ∃ ids : List Int,
      SortStabilized wA.graph = .ok ids ∧
      GetOrderedTasks wA = .ok (ids.map (fun i => lookupTask wA.tasks i)) ∧
      ids.Perm wA.graph.nodes ∧
      (∀ i ∈ ids, ∃ t : Task, lookupTask wA.tasks i = some t ∧ t.id = i) ∧
      (∀ e ∈ wA.graph.edges, ids.indexOf e.1 < ids.indexOf e.2) :=
  C1_getOrderedTasks_topological wA (by decide)
    (acyclic_of_no_self_reach wA.graph (by decide) (by decide))

/-- C2 counterexample: in the workflow `wTie` (task 3 depends on 1,
task 1 on 4, task 2 on 4), tasks 2 and 3 are unrelated in the
dependency order, yet `GetOrderedTasks` places 3 before 2 although
2 < 3, while [4, 1, 2, 3] is also a valid topological order.  The
returned order is therefore not the ascending-id tie-break. -/
theorem C2_counterexample :
    SortStabilized wTie.graph = .ok [4, 1, 3, 2] ∧
    ¬ Relation.TransGen (Step wTie.graph) 2 3 ∧
    ¬ Relation.TransGen (Step wTie.graph) 3 2 ∧
    (2 : Int) < 3 ∧
    ([4, 1, 3, 2] : List Int).indexOf 3 < ([4, 1, 3, 2] : List Int).indexOf 2 ∧
    IsTopoOrder wTie.graph [4, 1, 2, 3] := by
  refine ⟨by decide, ?_, ?_, by decide, by decide, by decide⟩
  · intro h
    have := reachB_of_transGen wTie.graph (by decide) h
    revert this
    decide
  · intro h
    have := reachB_of_transGen wTie.graph (by decide) h
    revert this
    decide

/-- C2 (amended): repeated calls to `GetOrderedTasks` on an unchanged
graph return an identical sequence — the result depends only on the
node set, edge set and registry, not on any storage enumeration order —
but the deterministic tie-break is the library's stabilized depth-first
rule, which does not always order unrelated tasks by ascending id. -/
theorem C2_amended_deterministic (w1 w2 : Workflow) (hts : w1.tasks = w2.tasks)
    (hn : w1.graph.nodes.Perm w2.graph.nodes)
    (he : w1.graph.edges.Perm w2.graph.edges) :
    GetOrderedTasks w1 = GetOrderedTasks w2 := by
  unfold GetOrderedTasks
  rw [sortStabilized_perm_invariant w1.graph w2.graph hn he, hts]

theorem C2_amended_witness : GetOrderedTasks wTie = GetOrderedTasks wTieShuffled :=
  C2_amended_deterministic wTie wTieShuffled rfl (by decide) (by decide)

/-- C3: building scenario A through the API (tasks 1–5; task 1 depends
on 2, 3, 4, 5; task 3 on 5; task 4 on 5) succeeds, and
`GetOrderedTasks` returns exactly the tasks with ids 2, 5, 3, 4, 1 in
that order. -/
theorem C3_scenarioA_order :
    scenarioA = .ok (wA, none) ∧
    (GetOrderedTasks wA).map (fun l => l.map (Option.map Task.id)) =
      .ok [some 2, some 5, some 3, some 4, some 1] := by
  constructor
  · rfl
  · decide

/-- C4: adding dependencies between registered tasks always succeeds at
`AddDependency` (no cycle check happens at insertion), and whenever the
resulting graph is cyclic, every later `GetOrderedTasks` call fails
with a cycle error whose components name exactly the node ids lying on
a cycle, returning no order at all. -/
theorem C4_cycle_detected_late (w : Workflow) (task : Task) (deps : List Task)
    (hwf : WF w) (htask : task.id ∈ w.graph.nodes)
    (hdeps : ∀ d ∈ deps, d.id ∈ w.graph.nodes ∧ d.id ≠ task.id) :
    ∃ w2 : Workflow, AddDependency w task deps = .ok (w2, none) ∧
      (¬ Acyclic w2.graph →
        ∃ comps, GetOrderedTasks w2 = .error (.unorderable comps) ∧ comps ≠ [] ∧
          (∀ v : Int, (∃ c ∈ comps, v ∈ c) ↔ Relation.TransGen (Step w2.graph) v v)) := by
  obtain ⟨hnd, hednd, hend2, htknd, htid, hkeys, hkeys2⟩ := hwf
  obtain ⟨w2, h1, h2, h3, h4, h5, h6⟩ := addDependency_ok w task deps htask hdeps
  refine ⟨w2, h1, ?_⟩
  intro hcyc
  have hend3 : ∀ e ∈ w2.graph.edges, e.1 ∈ w2.graph.nodes ∧ e.2 ∈ w2.graph.nodes := by
    intro e he
    rw [h3]
    rcases (h4 e).mp he with he2 | ⟨d, hd, rfl⟩
    · exact ⟨(hend2 e he2).1, (hend2 e he2).2.1⟩
    · exact ⟨(hdeps d hd).1, htask⟩
  obtain ⟨herr, hne⟩ := sortStabilized_error_of_cyclic w2.graph hend3 hcyc
  refine ⟨cyclicComponents w2.graph, ?_, hne, mem_cyclicComponents w2.graph hend3⟩
  unfold GetOrderedTasks
  rw [herr]

theorem C4_witness :
    ∃ comps, AddDependency wA tA5 [tA1] = .ok (wD, none) ∧
      GetOrderedTasks wD = .error (.unorderable comps) ∧ comps ≠ [] ∧
      (∃ c ∈ comps, (1 : Int) ∈ c) := by
  obtain ⟨w2, h1, h2⟩ :=
    C4_cycle_detected_late wA tA5 [tA1] (by decide) (by decide) (by decide)
  have hw2 : AddDependency wA tA5 [tA1] = .ok (wD, none) := rfl
  rw [hw2] at h1
  have heq : wD = w2 := ((Prod.mk.injEq _ _ _ _).mp ((GoResult.ok.injEq _ _).mp h1)).1
  subst heq
  have h11 : Relation.TransGen (Step wD.graph) 1 1 :=
    transGen_of_reachB wD.graph (by decide)
  obtain ⟨comps, hc1, hc2, hc3⟩ := h2 (fun hac => hac 1 h11)
  exact ⟨comps, hw2, hc1, hc2, (hc3 1).mpr h11⟩

/-- C5: a reconciliation pass returns nil exactly when the ordering
succeeded and no invoked task errored; an ordering error is wrapped in
`FatalError`, while the first task error aborts the pass and is
returned verbatim, with no later task invoked. -/
theorem C5_reconcile_first_error (w : Workflow) (ctx : Ctx) (hwf : WF w) :
    (∀ e, GetOrderedTasks w = .error e →
      Reconcile w ctx = .ok ([], some (.fatal e))) ∧
    (∀ l, GetOrderedTasks w = .ok l →
      ∃ (ts : List Task) (tr : List Int) (res : Option GoError),
        l = ts.map some ∧ Reconcile w ctx = .ok (tr, res) ∧
        ((res = none ∧
            ∀ t ∈ ts, t.id ∈ tr → t.reconcileFn ctx (t.id, t.desc) = none) ∨
          (∃ (pre : List Task) (t : Task) (post : List Task) (trPre : List Int),
            ts = pre ++ t :: post ∧
            t.reconcileFn ctx (t.id, t.desc) = res ∧ res ≠ none ∧
            tr = trPre ++ [t.id] ∧ (∀ i ∈ trPre, i ∈ pre.map Task.id) ∧
            (∀ u ∈ pre, u.id ∈ trPre → u.reconcileFn ctx (u.id, u.desc) = none) ∧
            (∀ u ∈ post, u.id ∉ tr)))) := by
  constructor
  · intro e he
    unfold Reconcile
    rw [he]
  · intro l hl
    obtain ⟨ids, ts, hsort, hmap, hperm, htopo, hshape, hids⟩ :=
      getOrderedTasks_ok_shape w hwf hl
    have hnd : (ts.map Task.id).Nodup := hids ▸ (htopo.1.nodup_iff).mpr hwf.1
    obtain ⟨tr, res, hloop, htr, hcase⟩ := reconcileLoop_spec ctx ts 0 hnd
    refine ⟨ts, tr, res, hshape, ?_, hcase⟩
    unfold Reconcile
    rw [hl, hshape]
    exact hloop

theorem C5_witness :
    ∃ l, GetOrderedTasks wA = Except.ok l ∧
      ∃ (ts : List Task) (tr : List Int) (res : Option GoError),
        l = ts.map some ∧ Reconcile wA ctxNone = .ok (tr, res) ∧
        ((res = none ∧
            ∀ t ∈ ts, t.id ∈ tr → t.reconcileFn ctxNone (t.id, t.desc) = none) ∨
          (∃ (pre : List Task) (t : Task) (post : List Task) (trPre : List Int),
            ts = pre ++ t :: post ∧
            t.reconcileFn ctxNone (t.id, t.desc) = res ∧ res ≠ none ∧
            tr = trPre ++ [t.id] ∧ (∀ i ∈ trPre, i ∈ pre.map Task.id) ∧
            (∀ u ∈ pre, u.id ∈ trPre → u.reconcileFn ctxNone (u.id, u.desc) = none) ∧
            (∀ u ∈ post, u.id ∉ tr))) :=
  ⟨_, rfl, (C5_reconcile_first_error wA ctxNone (by decide)).2 _ rfl⟩

/-- C6: cancellation is sampled once immediately before each would-be
invocation: a task whose sample shows an already-cancelled context is
not invoked; if the walk reaches the end of the sequence with every
would-be invoked task either skipped or succeeding, the pass still
returns success, and a fully cancelled pass returns success with no
task invoked. -/
theorem C6_cancellation (w : Workflow) (ctx : Ctx) (hwf : WF w)
    {l : List (Option Task)} (hl : GetOrderedTasks w = .ok l) :
    ∃ (ts : List Task) (tr : List Int) (res : Option GoError),
      l = ts.map some ∧ Reconcile w ctx = .ok (tr, res) ∧
      (∀ (i : Nat) (hi : i < ts.length), ctx.errAt i ≠ none →
        (ts.get ⟨i, hi⟩).id ∉ tr) ∧
      ((∀ t ∈ ts, t.reconcileFn ctx (t.id, t.desc) = none) → res = none) ∧
      ((∀ i, i < ts.length → ctx.errAt i ≠ none) →
        Reconcile w ctx = .ok ([], none)) := by
  obtain ⟨ids, ts, hsort, hmap, hperm, htopo, hshape, hids⟩ :=
    getOrderedTasks_ok_shape w hwf hl
  have hnd : (ts.map Task.id).Nodup := hids ▸ (htopo.1.nodup_iff).mpr hwf.1
  obtain ⟨tr, res, hloop, htr, hcase⟩ := reconcileLoop_spec ctx ts 0 hnd
  have hrec : Reconcile w ctx = reconcileLoop ctx 0 (ts.map some) := by
    unfold Reconcile
    rw [hl, hshape]
  refine ⟨ts, tr, res, hshape, by rw [hrec, hloop], ?_, ?_, ?_⟩
  · intro i hi hcan
    exact reconcileLoop_skip ctx ts 0 hnd tr res hloop i hi (by simpa using hcan)
  · intro hall
    rcases hcase with ⟨h1, _⟩ | ⟨pre, t, post, trPre, he, hres, hneres, _⟩
    · exact h1
    · exfalso
      exact hneres (hres ▸ hall t (by rw [he]; simp))
  · intro hall
    rw [hrec]
    exact reconcileLoop_all_cancelled ctx ts 0 (fun i hi => by simpa using hall i hi)

theorem C6_witness :
    ∃ l, GetOrderedTasks wA = Except.ok l ∧
      ∃ (ts : List Task) (tr : List Int) (res : Option GoError),
        l = ts.map some ∧ Reconcile wA ctxCancel = .ok (tr, res) ∧
        (∀ (i : Nat) (hi : i < ts.length), ctxCancel.errAt i ≠ none →
          (ts.get ⟨i, hi⟩).id ∉ tr) ∧
        ((∀ t ∈ ts, t.reconcileFn ctxCancel (t.id, t.desc) = none) → res = none) ∧
        ((∀ i, i < ts.length → ctxCancel.errAt i ≠ none) →
          Reconcile wA ctxCancel = .ok ([], none)) :=
  ⟨_, rfl, C6_cancellation wA ctxCancel (by decide) rfl⟩

/-- C7: `AddDependency` with an unregistered task or dependency id
fails naming the missing id and returns the workflow entirely
unchanged: all referenced ids are validated before any edge is
inserted. -/
theorem C7_addDependency_validation (w : Workflow) (task : Task) (deps : List Task) :
    (task.id ∉ w.graph.nodes →
      AddDependency w task deps = .ok (w, some (.unknownTask task.id task.id))) ∧
    (task.id ∈ w.graph.nodes → (∃ d ∈ deps, d.id ∉ w.graph.nodes) →
      ∃ d ∈ deps, d.id ∉ w.graph.nodes ∧
        AddDependency w task deps = .ok (w, some (.unknownTask task.id d.id))) :=
  ⟨addDependency_missing_task w task deps, addDependency_missing_dep w task deps⟩

theorem C7_witness :
    AddDependency wA tUnknown [tA1] =
      .ok (wA, some (.unknownTask tUnknown.id tUnknown.id)) ∧
    ∃ d ∈ [tUnknown], d.id ∉ wA.graph.nodes ∧
      AddDependency wA tA1 [tUnknown] = .ok (wA, some (.unknownTask tA1.id d.id)) :=
  ⟨(C7_addDependency_validation wA tUnknown [tA1]).1 (by decide),
    (C7_addDependency_validation wA tA1 [tUnknown]).2 (by decide)
      ⟨tUnknown, by simp, by decide⟩⟩

/-- C8: adding dependencies whose edges already exist is idempotent:
after a successful `AddDependency`, repeating the identical call
succeeds, adds no duplicate edge, and returns the workflow unchanged. -/
theorem C8_addDependency_idempotent (w : Workflow) (task : Task) (deps : List Task)
    (w1 : Workflow) (h : AddDependency w task deps = .ok (w1, none))
    (htask : task.id ∈ w.graph.nodes)
    (hdeps : ∀ d ∈ deps, d.id ∈ w.graph.nodes ∧ d.id ≠ task.id) :
    AddDependency w1 task deps = .ok (w1, none) ∧
      (w.graph.edges.Nodup → w1.graph.edges.Nodup) := by
  obtain ⟨w2, h1, h2, h3, h4, h5, h6⟩ := addDependency_ok w task deps htask hdeps
  rw [h] at h1
  have heq : w1 = w2 := ((Prod.mk.injEq _ _ _ _).mp ((GoResult.ok.injEq _ _).mp h1)).1
  subst heq
  obtain ⟨w3, g1, g2, g3, g4, g5, g6⟩ := addDependency_ok w1 task deps
    (by rw [h3]; exact htask)
    (by intro d hd; rw [h3]; exact hdeps d hd)
  have hw3 : w3 = w1 := g6 (fun d hd => (h4 _).mpr (Or.inr ⟨d, hd, rfl⟩))
  rw [hw3] at g1
  exact ⟨g1, h5⟩

theorem C8_witness :
    AddDependency wA tA3 [tA5] = .ok (wA, none) ∧
      (wA.graph.edges.Nodup → wA.graph.edges.Nodup) :=
  C8_addDependency_idempotent wA tA3 [tA5] wA rfl (by decide) (by decide)

/-- C9: registering a task whose id already exists fails with the
`AlreadyExists` error and leaves registry and graph unchanged, so the
registry keeps exactly one entry for that id. -/
theorem C9_addTask_duplicate (w : Workflow) (t : Task) (hwf : WF w)
    (hreg : t.id ∈ taskKeys w) :
    AddTask w t = .ok (w, some .alreadyExists) ∧ (taskKeys w).count t.id = 1 :=
  ⟨addTask_duplicate w t ((lookupTask_isSome_iff w.tasks t.id).mpr hreg),
    List.count_eq_one_of_mem hwf.2.2.2.1 hreg⟩

theorem C9_witness :
    AddTask wA tA1dup = .ok (wA, some .alreadyExists) ∧
      (taskKeys wA).count tA1dup.id = 1 :=
  C9_addTask_duplicate wA tA1dup (by decide) (by decide)

/-- C10: declaring a task as a dependency of itself is neither rejected
with an error nor deferred to ordering time: the validation passes (the
id is registered) and the underlying `SetEdge` call panics on the self
edge. -/
theorem C10_self_dependency_panics :
    AddDependency wA tA1 [tA1] = .panicked "simple: adding self edge" := rfl

end GoDags
